import Mathlib

/-!
Verification of the replkit2 command-registry and text-rendering layer.

The definitions below are shallow embeddings of the Python sources:
  * `src/replkit2/textkit/display.py` — `table`, `box`, `tree`
  * `src/replkit2/__init__.py` / `src/replkit2/app.py` — the `App` façade
    (command registration, `execute`, `list_commands`, `using`)
  * `src/replkit2/types.py` — `CommandMeta`

The textkit helper modules `config.py`, `core.py` (`wrap`) and `icons.py` are
not present in the source tree; where their behaviour is needed it is modelled
from the specification and marked as such in the doc comment.

Python strings are modelled as Lean `String`s (length = character count),
Python lists as Lean `List`s, Python dicts as insertion-ordered association
lists with in-place update, and raised exceptions as `Except.error` results.
-/

/-! ## Python string primitives -/

/-- `sep.join(xs)` for Python strings. -/
def pyJoin (sep : String) : List String → String
  | [] => ""
  | [x] => x
  | x :: xs => x ++ sep ++ pyJoin sep xs

/-- `"\n".join(xs)`, the join used by all renderers. -/
def joinLines (ls : List String) : String :=
  pyJoin "\n" ls

/-- `s.split("\n")` for a Python string: split at every newline character,
keeping empty segments (single-character separator semantics). -/
def pySplitLines (s : String) : List String :=
  (s.data.splitOn '\n').map fun l => String.mk l

/-- `c * n` for a character, i.e. Python `"-" * n` (empty for `n ≤ 0`). -/
def repChar (c : Char) (n : Nat) : String :=
  String.mk (List.replicate n c)

/-- `c * n` with a Python integer count: negative counts give `""`. -/
def repCharI (c : Char) (n : Int) : String :=
  repChar c n.toNat

/-- Python `str.ljust`: pad on the right with spaces to width `w`
(no-op when the string is already at least `w` characters long). -/
def ljust (s : String) (w : Nat) : String :=
  s ++ repChar ' ' (w - s.length)

/-- The ASCII whitespace characters removed by Python `str.strip()`. -/
def isPyWs (c : Char) : Bool :=
  c = ' ' || c = '\t' || c = '\n' || c = '\r' || c = '\x0b' || c = '\x0c'

/-- Python `s.strip()`: remove leading and trailing whitespace. -/
def pyStrip (s : String) : String :=
  String.mk (((s.data.dropWhile isPyWs).reverse.dropWhile isPyWs).reverse)

/-! ## `table` (textkit/display.py, lines 9–62) -/

/-- The width-update loop
`for i, cell in enumerate(row): if i < len(col_widths): col_widths[i] = max(col_widths[i], len(cell))`:
positions beyond the row are untouched, cells beyond the width list are ignored. -/
def updateWidths : List Nat → List String → List Nat
  | [], _ => []
  | ws, [] => ws
  | w :: ws, c :: cs => Nat.max w c.length :: updateWidths ws cs

/-- One formatted data row: cells left-justified to their column widths and
joined with two spaces; cells beyond the width list are dropped
(`if i < len(col_widths)`). -/
def fmtRow (ws : List Nat) (row : List String) : String :=
  pyJoin "  " ((row.zip ws).map fun p => ljust p.1 p.2)

/-- Row normalisation in the headers branch (display.py line 30):
`row[:num_cols] + [""] * (num_cols - len(row))`. -/
def normRow (numCols : Nat) (row : List String) : List String :=
  row.take numCols ++ List.replicate (numCols - row.length) ""

/-- The column widths computed by `table` when headers are present:
start from the header lengths and fold the update loop over the
normalised rows. -/
def tableColWidths (rows : List (List String)) (hs : List String) : List Nat :=
  (rows.map (normRow hs.length)).foldl updateWidths (hs.map String.length)

/-- The `result` list of lines built by `table` (display.py lines 9–62).
Cell values arrive already converted by `str(cell)`, so they are taken here
as strings. `headers = none` models Python `headers=None`; a `some []`
argument is falsy in Python (`if headers:`) and takes the no-headers branch. -/
def tableLines (rows : List (List String)) (headers : Option (List String)) : List String :=
  if rows.isEmpty then []
  else
    let hdr : List String := match headers with | some hs => hs | none => []
    if hdr.isEmpty then
      -- no headers: column count = max row length, widths start at 0, rows unpadded
      let numCols := (rows.map List.length).foldr Nat.max 0
      let colWidths := rows.foldl updateWidths (List.replicate numCols 0)
      rows.map (fmtRow colWidths)
    else
      let strRows := rows.map (normRow hdr.length)
      let colWidths := tableColWidths rows hdr
      (pyJoin "  " ((hdr.zip colWidths).map fun p => ljust p.1 p.2))
        :: (pyJoin "  " (colWidths.map (repChar '-')))
        :: strRows.map (fmtRow colWidths)

/-- `table(rows, headers)`: the joined output (empty string for no rows). -/
def table (rows : List (List String)) (headers : Option (List String)) : String :=
  joinLines (tableLines rows headers)

/-! ## `wrap` (textkit/core.py — absent from src/, modelled from the spec) -/

/-- Auxiliary for `chunksOf`, structurally recursive on a fuel bound
(`fuel ≥ cs.length` suffices for `w ≥ 1`). -/
def chunksOfAux (w : Nat) : Nat → List Char → List (List Char)
  | _, [] => []
  | 0, cs => [cs]
  | fuel + 1, cs => cs.take w :: chunksOfAux w fuel (cs.drop w)

/-- Modelled from the spec: the hard-break step of the word-wrap algorithm in
the missing `textkit/core.py` — a word longer than the width is broken into
chunks of exactly `w` characters (last chunk possibly shorter).  The spec
leaves width `0` unspecified; the word is then kept whole to stay total. -/
def chunksOf (w : Nat) (cs : List Char) : List (List Char) :=
  if w = 0 then [cs] else chunksOfAux w cs.length cs

/-- Modelled from the spec: greedy line fill for the word-wrap algorithm of the
missing `textkit/core.py` — words are packed into the current line while they
fit (one space between words); a word that alone exceeds the width is
hard-broken. `cur` is the line being filled (empty at the start). -/
def fill (w : Nat) : List (List Char) → List Char → List (List Char)
  | [], cur => if cur.isEmpty then [] else [cur]
  | word :: rest, cur =>
    if cur.isEmpty then
      if word.length ≤ w then fill w rest word
      else chunksOf w word ++ fill w rest []
    else
      if cur.length + 1 + word.length ≤ w then fill w rest (cur ++ ' ' :: word)
      else
        cur :: (if word.length ≤ w then fill w rest word
                else chunksOf w word ++ fill w rest [])

/-- Modelled from the spec: `wrap(text, width)` from the missing
`textkit/core.py`, described as "greedy line-fill, never splitting a word
unless the word alone exceeds the width, in which case hard-break it".
Words are maximal runs of non-whitespace (Python `str.split()`); a
non-positive width (unspecified by the spec) behaves as width 0. -/
def wrap (text : String) (width : Int) : List String :=
  let words := (text.data.splitOnP isPyWs).filter fun l => !l.isEmpty
  (fill width.toNat words []).map fun l => String.mk l

/-! ## `box` (textkit/display.py, lines 65–124) -/

/-- The `width = width or config.width` line of `box` (display.py line 75):
Python `or` takes the configured width when the argument is `None` or `0`.
The process-wide `config.width` (from the missing `textkit/config.py`,
default 80 per the spec) is passed explicitly as `cfg`. -/
def resolvedWidth (cfg : Int) (width : Option Int) : Int :=
  match width with
  | some n => if n ≠ 0 then n else cfg
  | none => cfg

/-- The top border of the box when a (truthy, i.e. non-empty) title is given:
`+` + two dashes + `" title "` + dashes balancing to the inner width + `+`
(display.py lines 107–112). Negative dash counts render as `""`. -/
def boxTitleTop (innerW : Int) (t : String) : String :=
  let padding : Int := innerW - t.length - 2
  let leftPad : Int := 2
  let rightPad : Int := padding - leftPad + 2
  "+" ++ repCharI '-' leftPad ++ (" " ++ t ++ " ") ++ repCharI '-' rightPad ++ "+"

/-- The plain horizontal border `+` + dashes + `+` (display.py lines 114, 122). -/
def boxBorder (boxWidth : Int) : String :=
  "+" ++ repCharI '-' (boxWidth - 2) ++ "+"

/-- The `result` list of lines built by `box(content, title, width)`
(display.py lines 65–124).  `cfg` is the process-wide `config.width`.
Mirrors the source step by step: resolve the width, strip and split the
content, wrap over-long lines to `width - 4`, then either keep the resolved
width (when positive) or auto-size to the longest wrapped line / title + 2,
and emit top border, padded content lines, bottom border.
An empty title is falsy in Python (`if title:`) and renders no title. -/
def boxLines (cfg : Int) (content : String) (title : Option String) (width : Option Int) :
    List String :=
  let width1 := resolvedWidth cfg width
  let lines := pySplitLines (pyStrip content)
  let innerWidth : Int := width1 - 4
  let wrappedLines := lines.flatMap fun line =>
    if (line.length : Int) > innerWidth then wrap line innerWidth else [line]
  let dims : Int × Int :=
    if width1 ≠ 0 ∧ width1 > 0 then (width1, width1 - 4)
    else
      let maxLineWidth : Nat :=
        if wrappedLines.isEmpty then 0 else (wrappedLines.map String.length).foldr Nat.max 0
      let maxLineWidth2 : Nat := match title with
        | some t => if t.isEmpty then maxLineWidth else Nat.max maxLineWidth (t.length + 2)
        | none => maxLineWidth
      ((maxLineWidth2 : Int) + 4, (maxLineWidth2 : Int))
  let boxWidth := dims.1
  let innerW := dims.2
  let top := match title with
    | some t => if t.isEmpty then boxBorder boxWidth else boxTitleTop innerW t
    | none => boxBorder boxWidth
  let contentLines := wrappedLines.map fun line =>
    "| " ++ line ++ repCharI ' ' (innerW - line.length) ++ " |"
  top :: contentLines ++ [boxBorder boxWidth]

/-- `box(content, title, width)`: the joined output. -/
def box (cfg : Int) (content : String) (title : Option String) (width : Option Int) : String :=
  joinLines (boxLines cfg content title width)

/-! ## `tree` (textkit/display.py, lines 146–196)

The tree glyphs come from `ICONS` in `textkit/icons.py`, which is absent from
src/.  Modelled from the spec: a `├──`-equivalent branch glyph, a
`└──`-equivalent terminal glyph, a continuation pipe for descendants of a
non-last sibling and a blank continuation for descendants of the last sibling
(ASCII forms as in the `tree` docstring). -/

/-- Modelled from the spec: `ICONS["tree_branch"]`. -/
def treeBranch : String := "|-- "

/-- Modelled from the spec: `ICONS["tree_last"]`. -/
def treeLast : String := "`-- "

/-- Modelled from the spec: `ICONS["tree_pipe"]`. -/
def treePipe : String := "|   "

/-- Modelled from the spec: `ICONS["tree_space"]`. -/
def treeSpace : String := "    "

/-- A Python value as consumed by `tree`: a nested mapping whose values are
mappings, sequences, or plain scalars.  Scalars reach the output only through
`str(value)`: strings carry themselves, integers print as in Python; sequence
elements likewise reach the output only through `str(item)` and are carried as
their string forms. -/
inductive Val where
  | vstr (s : String)
  | vint (n : Int)
  | vdict (entries : List (String × Val))
  | vlist (items : List String)

/-- `str(value)` for the scalar values rendered inline by `tree`. -/
def scalarStr : Val → String
  | .vstr s => s
  | .vint n => toString n
  | .vdict _ => ""
  | .vlist _ => ""

/-- The child-leaf lines rendered for a sequence value (display.py
lines 185–191): each element with the branch glyph, the last with the
terminal glyph. -/
def listChildLines (p : String) : List String → List String
  | [] => []
  | x :: rest =>
    (p ++ (if rest.isEmpty then treeLast else treeBranch) ++ x) :: listChildLines p rest

/-- The `lines` list built by the loop of `tree(data, _prefix)`
(display.py lines 157–194).  `is_last` is `i == len(items) - 1`, i.e. the
rest of the item list is empty.  A dict value recurses (the recursive call
`tree(value, new_prefix)`, inlined here as join-of-lines, returns a joined
string which is split back into lines, skipped when empty); a list value
appends child leaves; any other value is appended inline to the key line
just emitted (`lines[-1] = lines[-1] + ": " + str(value)`). -/
def treeLines : List (String × Val) → String → List String
  | [], _ => []
  | (k, v) :: rest, pfx =>
    let isLast := rest.isEmpty
    let keyLine :=
      if pfx.isEmpty then k
      else pfx ++ (if isLast then treeLast else treeBranch) ++ k
    let newPfx :=
      if pfx.isEmpty then (if isLast then treeSpace else treePipe)
      else pfx ++ (if isLast then treeSpace else treePipe)
    let entryLines :=
      match v with
      | .vdict d =>
        let subtree := joinLines (treeLines d newPfx)
        if subtree.isEmpty then [keyLine] else keyLine :: pySplitLines subtree
      | .vlist items => keyLine :: listChildLines newPfx items
      | v => [keyLine ++ ": " ++ scalarStr v]
    entryLines ++ treeLines rest pfx

/-- `tree(data, _prefix)`: the lines joined with `"\n"`. -/
def tree (data : List (String × Val)) (pfx : String) : String :=
  joinLines (treeLines data pfx)

/-- Newline-freeness of every string a `tree` value contributes to the
output: scalar values through `str(value)`, keys, and sequence items. -/
def valNLFree : Val → Bool
  | .vstr s => s.data.all fun c => ¬ c = '\n'
  | .vint n => (toString n).data.all fun c => ¬ c = '\n'
  | .vdict [] => true
  | .vdict ((k, v) :: rest) =>
      ((k.data.all fun c => ¬ c = '\n') && valNLFree v) && valNLFree (.vdict rest)
  | .vlist items => items.all fun s => s.data.all fun c => ¬ c = '\n'

/-- Newline-freeness for a dict's entry list. -/
def entriesNLFree (entries : List (String × Val)) : Bool :=
  valNLFree (.vdict entries)

/-! ## The `App` façade (replkit2/__init__.py lines 11–177)

`src/replkit2/app.py` carries an identical registry/dispatch core (its
`command` additionally threads a FastMCP config, and `using` additionally
shares `_mcp_components`); the claims are settled against the common core.

Python object references are modelled explicitly: a `World` holds the heap of
state instances and of command dictionaries, and an `App` holds indices into
it.  Dicts are insertion-ordered association lists with in-place update.
Positional arguments are modelled; keyword arguments add nothing to the
claims.  A `raise` is an `Except.error` result. -/

/-- Ordered-dict update `d[k] = v`: replace in place, else append. -/
def dictSet {β : Type _} : List (String × β) → String → β → List (String × β)
  | [], k, v => [(k, v)]
  | (k', v') :: rest, k, v =>
    if k' = k then (k', v) :: rest else (k', v') :: dictSet rest k v

/-- Ordered-dict lookup (`d[k]` / `k in d`). -/
def dictGet {β : Type _} : List (String × β) → String → Option β
  | [], _ => none
  | (k', v') :: rest, k => if k' = k then some v' else dictGet rest k

/-- `CommandMeta` (types.py): display hint, renderer options, alias names and
the FastMCP config.  Option values and the FastMCP payload are opaque to the
registry, so options are an association list over the value type `V` and the
FastMCP payload is reduced to presence (`__init__.py` never sets it). -/
structure CommandMeta (V : Type _) where
  display : Option String := none
  display_opts : List (String × V) := []
  aliases : List String := []
  fastmcp : Option Unit := none

/-- A registered Python operation: its `__name__` and its behaviour.  The
implementation receives `some state` when the façade injects its state
instance (`func(self.state, *args)`) and `none` for a stateless call
(`func(*args)`); it returns the state as mutated plus the result value. -/
structure PyFunc (S V : Type _) where
  name : String
  impl : Option S → List V → Option S × V

/-- The object heap: state instances and command dictionaries, addressed by
index.  Two façades alias the same registry or state exactly when they hold
the same index. -/
structure World (S V : Type _) where
  states : List S := []
  dicts : List (List (String × PyFunc S V × CommandMeta V)) := []

/-- The `App` façade: `self.state` and `self._commands` are references into
the heap; `self.serializer.serialize` is the strategy's single operation. -/
structure App (S V R : Type _) where
  name : String
  stateRef : Option Nat
  serializer : V → CommandMeta V → R
  dictRef : Nat

/-- `App.__init__(name, state_class, serializer)`: allocate a fresh state
instance when a state class is given (`stateInit` is the result of
`state_class()`), and allocate a fresh empty command dict. -/
def mkApp {S V R : Type _} (name : String) (stateInit : Option S)
    (serializer : V → CommandMeta V → R) (w : World S V) : App S V R × World S V :=
  match stateInit with
  | some s =>
    ({ name, stateRef := some w.states.length, serializer, dictRef := w.dicts.length },
     { w with states := w.states ++ [s], dicts := w.dicts ++ [[]] })
  | none =>
    ({ name, stateRef := none, serializer, dictRef := w.dicts.length },
     { w with dicts := w.dicts ++ [[]] })

/-- The command dict this façade's `self._commands` refers to. -/
def App.commandDict {S V R : Type _} (app : App S V R) (w : World S V) :
    List (String × PyFunc S V × CommandMeta V) :=
  w.dicts.getD app.dictRef []

/-- The decorator body of `App.command(display, aliases, **display_opts)`
(`__init__.py` lines 38–50): build one fresh `CommandMeta`, register the
operation under `func.__name__`, then under every alias, all mapping to the
same `(func, meta)` pair. -/
def App.register {S V R : Type _} (app : App S V R) (func : PyFunc S V)
    (display : Option String) (aliases : List String) (displayOpts : List (String × V))
    (w : World S V) : World S V :=
  let meta : CommandMeta V :=
    { display := display, display_opts := displayOpts, aliases := aliases }
  let d := app.commandDict w
  let d1 := dictSet d func.name (func, meta)
  let d2 := meta.aliases.foldl (fun d a => dictSet d a (func, meta)) d1
  { w with dicts := w.dicts.set app.dictRef d2 }

/-- `App.execute(command_name, *args)` (`__init__.py` lines 54–67): unknown
names raise `ValueError(f"Unknown command: {command_name}")`; otherwise the
operation is invoked with the shared state injected when present, the mutated
state is written back, and the result is passed through the serializer. -/
def App.execute {S V R : Type _} [Inhabited S] (app : App S V R) (cmdName : String)
    (args : List V) (w : World S V) : Except String R × World S V :=
  match dictGet (app.commandDict w) cmdName with
  | none => (.error ("Unknown command: " ++ cmdName), w)
  | some (func, meta) =>
    match app.stateRef with
    | some r =>
      let s := w.states.getD r default
      let res := func.impl (some s) args
      let w1 : World S V :=
        { w with states := match res.1 with | some s1 => w.states.set r s1 | none => w.states }
      (.ok (app.serializer res.2 meta), w1)
    | none =>
      let res := func.impl none args
      (.ok (app.serializer res.2 meta), w)

/-- `App.list_commands()` (`__init__.py` lines 69–71): the dict keys whose
stored operation's `__name__` equals the key. -/
def App.list_commands {S V R : Type _} (app : App S V R) (w : World S V) : List String :=
  ((app.commandDict w).filter fun p => p.2.1.name = p.1).map fun p => p.1

/-- `App.using(serializer)` (`__init__.py` lines 145–158): construct a new
`App` (allocating throwaway state/dict cells exactly as the constructor
does — `mkState` is the `type(self.state)()` result), then overwrite its
state and command references with this façade's own. -/
def App.using {S V R R2 : Type _} (app : App S V R) (serializer : V → CommandMeta V → R2)
    (mkState : S) (w : World S V) : App S V R2 × World S V :=
  let init := mkApp app.name (match app.stateRef with | some _ => some mkState | none => none)
    serializer w
  ({ init.1 with stateRef := app.stateRef, dictRef := app.dictRef }, init.2)

/-- The state instance a façade's next command invocation will receive
(`self.state` dereferenced). -/
def App.observedState {S V R : Type _} (app : App S V R) (w : World S V) : Option S :=
  app.stateRef.bind fun r => w.states.get? r

/-- One `@app.command(...)` registration event, for reasoning about
sequences of registrations. -/
structure Registration (S V : Type _) where
  func : PyFunc S V
  display : Option String := none
  aliases : List String := []
  opts : List (String × V) := []

/-- All names a registration binds: the primary name and every alias. -/
def Registration.names {S V : Type _} (reg : Registration S V) : List String :=
  reg.func.name :: reg.aliases

/-- Apply a sequence of registrations to a façade in order. -/
def applyRegs {S V R : Type _} (app : App S V R) (regs : List (Registration S V))
    (w : World S V) : World S V :=
  regs.foldl (fun w reg => app.register reg.func reg.display reg.aliases reg.opts w) w

/-! ## Basic lemmas about the string primitives -/

theorem repChar_length (c : Char) (n : Nat) : (repChar c n).length = n := by
  simp [repChar, String.length]

theorem repCharI_length (c : Char) (n : Int) : (repCharI c n).length = n.toNat := by
  simp [repCharI, repChar_length]

theorem ljust_length (s : String) (w : Nat) : (ljust s w).length = Nat.max w s.length := by
  simp only [ljust, String.length_append, repChar_length, Nat.max_def]
  split <;> omega

/-! ## Bounds for the spec-modelled word wrap -/

theorem chunksOfAux_le (w : Nat) (hw : 1 ≤ w) :
    ∀ (fuel : Nat) (cs : List Char), cs.length ≤ fuel →
      ∀ l ∈ chunksOfAux w fuel cs, l.length ≤ w := by
  intro fuel
  induction fuel with
  | zero =>
    intro cs hcs l hl
    have : cs = [] := List.eq_nil_of_length_eq_zero (Nat.le_zero.1 hcs)
    subst this
    cases hl
  | succ fuel ih =>
    intro cs hcs l hl
    cases cs with
    | nil => cases hl
    | cons c cs2 =>
      rcases List.mem_cons.1 hl with rfl | hl2
      · simpa using List.length_take_le w (c :: cs2)
      · refine ih _ ?_ l hl2
        rw [List.length_drop]
        simp only [List.length_cons] at hcs ⊢
        omega

theorem chunksOf_le (w : Nat) (hw : 1 ≤ w) (cs : List Char) :
    ∀ l ∈ chunksOf w cs, l.length ≤ w := by
  intro l hl
  rw [chunksOf, if_neg (by omega)] at hl
  exact chunksOfAux_le w hw cs.length cs (Nat.le_refl _) l hl

theorem fill_le (w : Nat) (hw : 1 ≤ w) :
    ∀ (words : List (List Char)) (cur : List Char), cur.length ≤ w →
      ∀ l ∈ fill w words cur, l.length ≤ w := by
  intro words
  induction words with
  | nil =>
    intro cur hc l hl
    rw [fill] at hl
    split at hl
    · cases hl
    · rcases List.mem_singleton.1 hl with rfl
      exact hc
  | cons word rest ih =>
    intro cur hc l hl
    rw [fill] at hl
    split at hl
    · -- current line empty
      split at hl
      · exact ih word (by assumption) l hl
      · rcases List.mem_append.1 hl with h1 | h2
        · exact chunksOf_le w hw word l h1
        · exact ih [] (by simp) l h2
    · -- current line non-empty
      split at hl
      · rename_i hfits
        refine ih _ ?_ l hl
        simp only [List.length_append, List.length_cons]
        omega
      · rcases List.mem_cons.1 hl with rfl | hl2
        · exact hc
        · split at hl2
          · exact ih word (by assumption) l hl2
          · rcases List.mem_append.1 hl2 with h1 | h2
            · exact chunksOf_le w hw word l h1
            · exact ih [] (by simp) l h2

theorem wrap_le (text : String) (width : Int) (hw : 1 ≤ width) :
    ∀ l ∈ wrap text width, (l.length : Int) ≤ width := by
  intro l hl
  rw [wrap] at hl
  rcases List.mem_map.1 hl with ⟨cs, hcs, rfl⟩
  have h1 : cs.length ≤ width.toNat :=
    fill_le width.toNat (by omega) _ [] (by simp) cs hcs
  have h2 : (String.mk cs).length = cs.length := rfl
  omega

/-! ## `pyStrip` is idempotent -/

theorem dropWhile_dropWhile (p : Char → Bool) (l : List Char) :
    (l.dropWhile p).dropWhile p = l.dropWhile p := by
  induction l with
  | nil => rfl
  | cons a t ih =>
    by_cases h : p a
    · rw [List.dropWhile_cons_of_pos h, ih]
    · rw [List.dropWhile_cons_of_neg h, List.dropWhile_cons_of_neg h]

theorem dropWhile_eq_self_of_head (p : Char → Bool) (l : List Char)
    (h : ∀ a, l.head? = some a → p a = false) : l.dropWhile p = l := by
  cases l with
  | nil => rfl
  | cons a t =>
    have ha := h a rfl
    exact List.dropWhile_cons_of_neg (by simp [ha])

theorem getLast?_dropWhile (p : Char → Bool) (l : List Char)
    (h : l.dropWhile p ≠ []) : (l.dropWhile p).getLast? = l.getLast? := by
  conv_rhs => rw [← List.takeWhile_append_dropWhile (p := p) (l := l)]
  rw [List.getLast?_append_of_ne_nil _ h]

theorem pyStrip_idem (s : String) : pyStrip (pyStrip s) = pyStrip s := by
  unfold pyStrip
  congr 1
  show ((((s.data.dropWhile isPyWs).reverse.dropWhile isPyWs).reverse.dropWhile
    isPyWs).reverse.dropWhile isPyWs).reverse =
      ((s.data.dropWhile isPyWs).reverse.dropWhile isPyWs).reverse
  have hX : ((s.data.dropWhile isPyWs).reverse.dropWhile isPyWs).reverse.dropWhile isPyWs =
      ((s.data.dropWhile isPyWs).reverse.dropWhile isPyWs).reverse := by
    apply dropWhile_eq_self_of_head
    intro a ha
    rw [List.head?_reverse] at ha
    have hne : (s.data.dropWhile isPyWs).reverse.dropWhile isPyWs ≠ [] := by
      intro hnil
      rw [hnil] at ha
      cases ha
    rw [getLast?_dropWhile _ _ hne, List.getLast?_reverse] at ha
    have := List.head?_dropWhile_not isPyWs s.data
    rw [ha] at this
    exact this
  rw [hX, List.reverse_reverse, dropWhile_dropWhile]

/-! ## Width computation lemmas for `table` -/

theorem updateWidths_length (ws : List Nat) (r : List String) :
    (updateWidths ws r).length = ws.length := by
  induction ws generalizing r with
  | nil => simp [updateWidths]
  | cons w ws ih =>
    cases r with
    | nil => simp [updateWidths]
    | cons c cs => simp [updateWidths, ih]

theorem foldl_updateWidths_length (rows : List (List String)) (ws : List Nat) :
    (rows.foldl updateWidths ws).length = ws.length := by
  induction rows generalizing ws with
  | nil => rfl
  | cons r rows ih => simp [List.foldl_cons, ih, updateWidths_length]

theorem updateWidths_getElem? (ws : List Nat) (r : List String) (i : Nat) :
    (updateWidths ws r)[i]? =
      (ws[i]?).map fun w =>
        match r[i]? with
        | some c => Nat.max w c.length
        | none => w := by
  induction ws generalizing r i with
  | nil => simp [updateWidths]
  | cons w ws ih =>
    cases r with
    | nil =>
      cases i <;> simp [updateWidths]
    | cons c cs =>
      cases i with
      | zero => simp [updateWidths]
      | succ j => simpa [updateWidths] using ih cs j

theorem foldl_updateWidths_getElem? (rows : List (List String)) (ws : List Nat) (i : Nat) :
    (rows.foldl updateWidths ws)[i]? =
      (ws[i]?).map fun w =>
        Nat.max w ((rows.map fun r => (r.getD i "").length).foldr Nat.max 0) := by
  induction rows generalizing ws with
  | nil =>
    cases h : ws[i]? <;> simp [h, Nat.max_zero]
  | cons r rows ih =>
    rw [List.foldl_cons, ih, updateWidths_getElem?]
    cases h : ws[i]? with
    | none => simp [h]
    | some w =>
      have hg : (r.getD i "").length = match r[i]? with | some c => c.length | none => 0 := by
        cases hr : r[i]? <;> simp [List.getD, hr]
      simp only [h, Option.map_some, Option.map_map, Function.comp, List.map_cons,
        List.foldr_cons, hg]
      cases hr : r[i]? with
      | none =>
        simp only [Option.map_some', Option.some.injEq, Function.comp]
        have hx : Nat.max 0 ((rows.map fun r => (r.getD i "").length).foldr Nat.max 0) =
            (rows.map fun r => (r.getD i "").length).foldr Nat.max 0 := by
          simp [Nat.max_def]
        rw [hx]
      | some c =>
        simp only [Option.map_some', Option.some.injEq, Function.comp]
        have hx : Nat.max (Nat.max w c.length)
              ((rows.map fun r => (r.getD i "").length).foldr Nat.max 0) =
            Nat.max w (Nat.max c.length
              ((rows.map fun r => (r.getD i "").length).foldr Nat.max 0)) :=
          Nat.max_assoc _ _ _
        rw [hx]

theorem le_foldr_max (l : List Nat) (a : Nat) (h : a ∈ l) : a ≤ l.foldr Nat.max 0 := by
  induction l with
  | nil => cases h
  | cons x xs ih =>
    rcases List.mem_cons.1 h with rfl | h2
    · exact Nat.le_max_left _ _
    · exact Nat.le_trans (ih h2) (Nat.le_max_right _ _)

theorem normRow_length (n : Nat) (row : List String) : (normRow n row).length = n := by
  simp only [normRow, List.length_append, List.length_take, List.length_replicate]
  omega

theorem tableColWidths_length (rows : List (List String)) (hs : List String) :
    (tableColWidths rows hs).length = hs.length := by
  simp [tableColWidths, foldl_updateWidths_length]

theorem tableColWidths_getElem? (rows : List (List String)) (hs : List String) (i : Nat)
    (h : i < hs.length) :
    (tableColWidths rows hs)[i]? =
      some (Nat.max (hs.getD i "").length
        ((rows.map fun r => ((normRow hs.length r).getD i "").length).foldr Nat.max 0)) := by
  rw [tableColWidths, foldl_updateWidths_getElem?]
  have h1 : (hs.map String.length)[i]? = some (hs.getD i "").length := by
    rw [List.getElem?_map]
    rw [List.getElem?_eq_getElem h]
    simp [List.getD, List.getElem?_eq_getElem h]
  rw [h1]
  simp only [Option.map_some, Option.some.injEq, List.map_map]
  rfl

theorem getD_map_zip (f : String → Nat → String) (a : List String) (b : List Nat) :
    ∀ i, i < a.length → i < b.length →
      ((a.zip b).map fun p => f p.1 p.2).getD i "" = f (a.getD i "") (b.getD i 0) := by
  induction a generalizing b with
  | nil => intro i h1 _; cases h1
  | cons x xs ih =>
    cases b with
    | nil => intro i _ h2; cases h2
    | cons y ys =>
      intro i h1 h2
      cases i with
      | zero => simp [List.getD]
      | succ j =>
        simp only [List.zip_cons_cons, List.map_cons, List.getD_cons_succ]
        exact ih ys j (by simpa using h1) (by simpa using h2)

theorem getD_map_repChar (b : List Nat) :
    ∀ i, i < b.length → (b.map (repChar '-')).getD i "" = repChar '-' (b.getD i 0) := by
  induction b with
  | nil => intro i h; cases h
  | cons y ys ih =>
    intro i h
    cases i with
    | zero => simp [List.getD]
    | succ j =>
      simp only [List.map_cons, List.getD_cons_succ]
      exact ih j (by simpa using h)

theorem natMax_eq_left {a b : Nat} (h : b ≤ a) : Nat.max a b = a := by
  simp only [Nat.max_def]
  split_ifs <;> omega

theorem natLe_max_left (a b : Nat) : a ≤ Nat.max a b := by
  simp only [Nat.max_def]
  split_ifs <;> omega

theorem natMax_absorb_left (a b : Nat) : Nat.max (Nat.max a b) a = Nat.max a b :=
  natMax_eq_left (natLe_max_left a b)

/-! ## C1: `table` with headers — column count, padding/truncation, widths -/

/-- C1: with a non-empty header list, every output line of `table(rows, hs)`
(header line, separator line and each data line) is a two-space join of
exactly `len(hs)` cells, and cell `i` of every line is exactly as wide as
column `i`, whose width is the maximum of header `i`'s length and the longest
cell in column `i` of the normalised rows; moreover the data lines are
exactly the rows right-padded with empty cells / truncated to `len(hs)` cells
(`normRow`), left-justified to the column widths. -/
theorem table_headers_shape (rows : List (List String)) (hs : List String) (hh : hs ≠ []) :
    (∀ l ∈ tableLines rows (some hs), ∃ cells : List String,
        l = pyJoin "  " cells ∧ cells.length = hs.length ∧
        ∀ i, i < hs.length →
          (cells.getD i "").length =
            Nat.max (hs.getD i "").length
              ((rows.map fun r => ((normRow hs.length r).getD i "").length).foldr Nat.max 0))
    ∧ (rows ≠ [] →
        tableLines rows (some hs) =
          pyJoin "  " ((hs.zip (tableColWidths rows hs)).map fun p => ljust p.1 p.2)
            :: pyJoin "  " ((tableColWidths rows hs).map (repChar '-'))
            :: rows.map fun r =>
                 pyJoin "  " (((normRow hs.length r).zip (tableColWidths rows hs)).map
                   fun p => ljust p.1 p.2)) := by
  have hW : (tableColWidths rows hs).length = hs.length := tableColWidths_length rows hs
  have hWi : ∀ i, i < hs.length → (tableColWidths rows hs).getD i 0 =
      Nat.max (hs.getD i "").length
        ((rows.map fun r => ((normRow hs.length r).getD i "").length).foldr Nat.max 0) := by
    intro i hi
    simp [List.getD, tableColWidths_getElem? rows hs i hi]
  have heq : rows ≠ [] →
      tableLines rows (some hs) =
        pyJoin "  " ((hs.zip (tableColWidths rows hs)).map fun p => ljust p.1 p.2)
          :: pyJoin "  " ((tableColWidths rows hs).map (repChar '-'))
          :: rows.map fun r =>
               pyJoin "  " (((normRow hs.length r).zip (tableColWidths rows hs)).map
                 fun p => ljust p.1 p.2) := by
    intro hrows
    have h1 : rows.isEmpty = false := by
      cases rows with
      | nil => exact absurd rfl hrows
      | cons a l => rfl
    have h2 : hs.isEmpty = false := by
      cases hs with
      | nil => exact absurd rfl hh
      | cons a l => rfl
    simp only [tableLines, h1, h2, Bool.false_eq_true, if_false, fmtRow, List.map_map]
    rfl
  refine ⟨?_, heq⟩
  intro l hl
  by_cases hrows : rows = []
  · subst hrows
    simp [tableLines] at hl
  · rw [heq hrows] at hl
    rcases List.mem_cons.1 hl with rfl | hl2
    · -- header line
      refine ⟨(hs.zip (tableColWidths rows hs)).map fun p => ljust p.1 p.2, rfl, ?_, ?_⟩
      · simp [List.length_zip, hW]
      · intro i hi
        rw [getD_map_zip ljust hs (tableColWidths rows hs) i hi (by omega)]
        rw [ljust_length, hWi i hi, natMax_absorb_left]
    · rcases List.mem_cons.1 hl2 with rfl | hl3
      · -- separator line
        refine ⟨(tableColWidths rows hs).map (repChar '-'), rfl, ?_, ?_⟩
        · simp [hW]
        · intro i hi
          rw [getD_map_repChar (tableColWidths rows hs) i (by omega)]
          rw [repChar_length, hWi i hi]
      · -- data line
        rcases List.mem_map.1 hl3 with ⟨r, hr, rfl⟩
        refine ⟨((normRow hs.length r).zip (tableColWidths rows hs)).map
          fun p => ljust p.1 p.2, rfl, ?_, ?_⟩
        · simp [List.length_zip, hW, normRow_length]
        · intro i hi
          rw [getD_map_zip ljust (normRow hs.length r) (tableColWidths rows hs) i
            (by rw [normRow_length]; omega) (by omega)]
          rw [ljust_length, hWi i hi]
          have hcell : ((normRow hs.length r).getD i "").length ≤
              ((rows.map fun r => ((normRow hs.length r).getD i "").length).foldr Nat.max 0) :=
            le_foldr_max _ _ (List.mem_map.2 ⟨r, hr, rfl⟩)
          exact natMax_eq_left (Nat.le_trans hcell (by
            have := natLe_max_left ((rows.map fun r =>
              ((normRow hs.length r).getD i "").length).foldr Nat.max 0) (hs.getD i "").length
            calc ((rows.map fun r => ((normRow hs.length r).getD i "").length).foldr Nat.max 0)
                ≤ Nat.max ((rows.map fun r =>
                    ((normRow hs.length r).getD i "").length).foldr Nat.max 0)
                    (hs.getD i "").length := this
              _ = Nat.max (hs.getD i "").length ((rows.map fun r =>
                    ((normRow hs.length r).getD i "").length).foldr Nat.max 0) :=
                  Nat.max_comm _ _))

theorem table_headers_shape_witness :
    (["name", "age"] : List String) ≠ [] ∧
    (∃ cells : List String, "Alice  30 " = pyJoin "  " cells ∧ cells.length = 2 ∧
      ∀ i, i < 2 →
        (cells.getD i "").length =
          Nat.max ((["name", "age"] : List String).getD i "").length
            ((([["Alice", "30"], ["Bob"]] : List (List String)).map
              fun r => ((normRow 2 r).getD i "").length).foldr Nat.max 0)) :=
  ⟨by decide,
    (table_headers_shape [["Alice", "30"], ["Bob"]] ["name", "age"] (by decide)).1
      "Alice  30 " (by decide)⟩

/-! ## `box` lemmas: C2, C3, C10 -/

theorem boxLines_pos_width (cfg : Int) (content : String) (title : Option String)
    (W : Int) (hW : 0 < W) :
    boxLines cfg content title (some W) =
      (match title with
        | some t => if t.isEmpty then boxBorder W else boxTitleTop (W - 4) t
        | none => boxBorder W)
      :: (((pySplitLines (pyStrip content)).flatMap fun line =>
            if (line.length : Int) > W - 4 then wrap line (W - 4) else [line]).map
          fun line => "| " ++ line ++ repCharI ' ' ((W - 4) - line.length) ++ " |")
      ++ [boxBorder W] := by
  have h0 : W ≠ 0 := by omega
  simp only [boxLines, resolvedWidth, if_pos h0, if_pos (And.intro h0 hW)]

theorem boxBorder_length (bw : Int) (h : 2 ≤ bw) : ((boxBorder bw).length : Int) = bw := by
  simp only [boxBorder, String.length_append, repCharI_length]
  have h1 : ("+" : String).length = 1 := rfl
  omega

theorem boxTitleTop_length (innerW : Int) (t : String) (h : (t.length : Int) + 2 ≤ innerW) :
    ((boxTitleTop innerW t).length : Int) = innerW + 4 := by
  simp only [boxTitleTop, String.length_append, repCharI_length]
  have h1 : ("+" : String).length = 1 := rfl
  have h2 : (" " : String).length = 1 := rfl
  omega

/-- C2 (amended): for every width `W ≥ 5` and every title that fits in the top
border (`len(title) + 6 ≤ W`, or no title), every line of
`box(content, title, W)` has length exactly `W`. -/
theorem box_rectangular (cfg : Int) (content : String) (title : Option String)
    (W : Int) (hW : 5 ≤ W) (ht : ∀ t, title = some t → (t.length : Int) + 6 ≤ W) :
    ∀ l ∈ boxLines cfg content title (some W), (l.length : Int) = W := by
  intro l hl
  rw [boxLines_pos_width cfg content title W (by omega)] at hl
  have hwrapped : ∀ l2 ∈ ((pySplitLines (pyStrip content)).flatMap fun line =>
      if (line.length : Int) > W - 4 then wrap line (W - 4) else [line]),
      (l2.length : Int) ≤ W - 4 := by
    intro l2 hl2
    rcases List.mem_flatMap.1 hl2 with ⟨line, hline, hmem⟩
    by_cases hlong : (line.length : Int) > W - 4
    · rw [if_pos hlong] at hmem
      exact wrap_le line (W - 4) (by omega) l2 hmem
    · rw [if_neg hlong] at hmem
      rcases List.mem_singleton.1 hmem with rfl
      omega
  rcases List.mem_cons.1 hl with rfl | hl2
  · -- top border
    cases title with
    | none => exact boxBorder_length W (by omega)
    | some t =>
      by_cases hte : t.isEmpty
      · simp only [if_pos hte]
        exact boxBorder_length W (by omega)
      · simp only [if_neg hte]
        have := ht t rfl
        have := boxTitleTop_length (W - 4) t (by omega)
        omega
  · rcases List.mem_append.1 hl2 with h1 | h2
    · -- content line
      rcases List.mem_map.1 h1 with ⟨line, hline, rfl⟩
      have hle := hwrapped line hline
      simp only [String.length_append, repCharI_length]
      have h2 : ("| " : String).length = 2 := rfl
      have h3 : (" |" : String).length = 2 := rfl
      omega
    · -- bottom border
      rcases List.mem_singleton.1 h2 with rfl
      exact boxBorder_length W (by omega)

theorem box_rectangular_witness :
    ((5 : Int) ≤ 18 ∧ ∀ t : String, (some "Title" : Option String) = some t →
        (t.length : Int) + 6 ≤ 18) ∧
    ∀ l ∈ boxLines 80 "hello world" (some "Title") (some 18), (l.length : Int) = 18 :=
  ⟨⟨by omega, fun t h => by cases h; decide⟩,
    box_rectangular 80 "hello world" (some "Title") 18 (by omega)
      (fun t h => by cases h; decide)⟩

/-- C2 (original claim refuted twice): (a) with a title longer than the top
border can hold, `box` emits a border line longer than the requested width —
the box of width 10 titled `"1234567"` is not a rectangle of width 10; and
(b) at width 4 the inner width is 0, so any non-empty content yields a
content line longer than the box — `box("x", width=4)` emits a line of
length 5.  Failure (a) forces the fitting-title condition and failure (b)
forces the bound `W ≥ 5` in the amended claim. -/
theorem box_rectangular_cex :
    (¬ ∀ l ∈ boxLines 80 "x" (some "1234567") (some 10), (l.length : Int) = 10) ∧
    (¬ ∀ l ∈ boxLines 80 "x" none (some 4), (l.length : Int) = 4) := by
  constructor
  · decide
  · decide

/-- C3 (code bug documented): with the width argument omitted, `box` renders
at the process-wide configured width (default 80) — every line of
`box("hi")` has length 80 — whereas the auto-size computation the source
carries for this case (reachable only when the configured width is 0) would
produce a box of total width 6 (longest line 2 plus 4). -/
theorem box_omitted_width_uses_config :
    (boxLines 80 "hi" none none).map String.length = [80, 80, 80] ∧
    (boxLines 0 "hi" none none).map String.length = [6, 6, 6] := by
  constructor
  · decide
  · decide

/-- C10: `box` strips the content before wrapping, so `box(c, t, w)` equals
`box(c.strip(), t, w)` for every content string; and whitespace-only content
(strip gives `""`) renders, for any explicit width `W ≥ 4`, as a box with
exactly one content line consisting of spaces. -/
theorem box_strip_invariant (cfg : Int) (c : String) (t : Option String) (w : Option Int) :
    box cfg c t w = box cfg (pyStrip c) t w ∧
    (c.data.all isPyWs = true → ∀ W : Int, 4 ≤ W →
      (boxLines cfg c t (some W)).length = 3 ∧
      (boxLines cfg c t (some W))[1]? = some ("| " ++ repCharI ' ' (W - 4) ++ " |")) := by
  constructor
  · simp only [box, boxLines, pyStrip_idem]
  · intro hws W hW4
    have hstrip : pyStrip c = "" := by
      have hd : c.data.dropWhile isPyWs = [] :=
        List.dropWhile_eq_nil_iff.2 fun x hx => by
          have := List.all_eq_true.1 hws x hx
          simpa using this
      simp [pyStrip, hd]
    rw [boxLines_pos_width cfg c t W (by omega), hstrip]
    have hsplit : pySplitLines "" = [""] := rfl
    rw [hsplit]
    have hshort : ¬ ((("" : String).length : Int) > W - 4) := by
      have : (("" : String).length : Int) = 0 := rfl
      omega
    simp only [List.flatMap_cons, List.flatMap_nil, if_neg hshort, List.append_nil,
      List.map_cons, List.map_nil]
    constructor
    · rfl
    · simp only [List.cons_append, List.getElem?_cons_succ, List.getElem?_cons_zero,
        Option.some.injEq, String.length_empty, Nat.cast_zero, sub_zero, String.append_empty]

theorem box_strip_invariant_witness :
    (("  \n ").data.all isPyWs = true ∧ (4 : Int) ≤ 8) ∧
    ((boxLines 80 "  \n " none (some 8)).length = 3 ∧
      (boxLines 80 "  \n " none (some 8))[1]? = some ("| " ++ repCharI ' ' (8 - 4) ++ " |")) :=
  ⟨⟨by decide, by omega⟩,
    (box_strip_invariant 80 "  \n " none (some 8)).2 (by decide) 8 (by omega)⟩

/-! ## C9: `table` on an empty row sequence -/

/-- C9: for every header argument (a header list, `None`, and in particular
also the empty header list), `table([], H)` returns the empty string — no
header line and no separator rule is rendered. -/
theorem table_empty_rows (headers : Option (List String)) :
    table [] headers = "" ∧ tableLines [] headers = [] :=
  ⟨rfl, rfl⟩

/-! ## C4: `execute` with an unregistered name -/

/-- C4: for every façade and world, if a name is not in the command registry
then `execute` fails with the lookup error `"Unknown command: <name>"` and
returns the world — registry heap and state heap — unchanged; it never
produces an `ok` result. -/
theorem execute_unknown_name {S V R : Type _} [Inhabited S] (w : World S V)
    (app : App S V R) (n : String) (args : List V)
    (h : dictGet (app.commandDict w) n = none) :
    app.execute n args w = (.error ("Unknown command: " ++ n), w) := by
  unfold App.execute
  rw [h]

theorem execute_unknown_name_witness :
    dictGet ((App.mk "demo" none (fun (v : Nat) (_ : CommandMeta Nat) => v) 0
        : App Nat Nat Nat).commandDict {}) "unknown" = none ∧
    (App.mk "demo" none (fun (v : Nat) (_ : CommandMeta Nat) => v) 0
        : App Nat Nat Nat).execute "unknown" [] {} =
      (.error "Unknown command: unknown", {}) :=
  ⟨rfl, execute_unknown_name {} _ "unknown" [] rfl⟩

/-! ## C5: `list_commands` returns primary names only -/

theorem mem_keys_of_mem_filter_keys {S V : Type _}
    (d : List (String × PyFunc S V × CommandMeta V))
    (q : String × PyFunc S V × CommandMeta V → Bool) (n : String)
    (h : n ∈ (d.filter q).map Prod.fst) : n ∈ d.map Prod.fst := by
  rcases List.mem_map.1 h with ⟨p, hp, hn⟩
  exact List.mem_map.2 ⟨p, List.mem_of_mem_filter hp, hn⟩

theorem filter_primary_mem {S V : Type _} (d : List (String × PyFunc S V × CommandMeta V))
    (hnd : (d.map Prod.fst).Nodup) (n : String) :
    (n ∈ (d.filter fun p => p.2.1.name = p.1).map Prod.fst ↔
      ∃ f m, dictGet d n = some (f, m) ∧ f.name = n) := by
  induction d with
  | nil => simp [dictGet]
  | cons hd rest ih =>
    obtain ⟨k, e⟩ := hd
    simp only [List.map_cons, List.nodup_cons] at hnd
    obtain ⟨hknotin, hndrest⟩ := hnd
    by_cases hk : k = n
    · subst hk
      simp only [dictGet, if_pos rfl, List.filter_cons]
      by_cases hq : e.1.name = k
      · simp only [List.filter_cons, decide_eq_true_eq, if_pos hq, List.map_cons,
          List.mem_cons, Option.some.injEq]
        refine iff_of_true (Or.inl trivial) ⟨e.1, e.2, ?_, hq⟩
        simp
      · have : ¬ k ∈ ((rest.filter fun p => p.2.1.name = p.1).map Prod.fst) := fun hmem =>
          hknotin (mem_keys_of_mem_filter_keys rest _ k hmem)
        simp only [decide_eq_true_eq, if_neg hq]
        constructor
        · intro hmem; exact absurd hmem this
        · rintro ⟨f, m, hfm, hname⟩
          obtain ⟨rfl, rfl⟩ : e.1 = f ∧ e.2 = m := by
            have := Option.some.inj hfm
            exact ⟨congrArg Prod.fst this, congrArg Prod.snd this⟩
          exact absurd hname hq
    · simp only [dictGet, if_neg hk, List.filter_cons]
      by_cases hq : e.1.name = k
      · simp only [decide_eq_true_eq, if_pos hq, List.map_cons, List.mem_cons]
        rw [← ih hndrest]
        constructor
        · rintro (rfl | hmem)
          · exact absurd rfl hk
          · exact hmem
        · intro hmem; exact Or.inr hmem
      · simp only [decide_eq_true_eq, if_neg hq]
        exact ih hndrest

theorem commandDict_register {S V R : Type _} (app : App S V R) (func : PyFunc S V)
    (disp : Option String) (aliases : List String) (opts : List (String × V))
    (w : World S V) (h : app.dictRef < w.dicts.length) :
    app.commandDict (app.register func disp aliases opts w) =
      aliases.foldl
        (fun d a => dictSet d a (func, ⟨disp, opts, aliases, none⟩))
        (dictSet (app.commandDict w) func.name (func, ⟨disp, opts, aliases, none⟩)) := by
  unfold App.register App.commandDict
  simp only [List.getD_eq_getElem?_getD, List.getElem?_set_self (by simpa using h)]
  rfl

/-- C5: `list_commands` returns exactly the registry keys whose stored
operation's intrinsic `__name__` equals the key (so never an alias name
registered under a different key), and in particular registering a command
`f` with alias `g` on a fresh façade yields `list_commands() = [f]`. -/
theorem list_commands_primary {S V R : Type _} (w : World S V) (app : App S V R)
    (hnd : ((app.commandDict w).map Prod.fst).Nodup) :
    (∀ n, n ∈ app.list_commands w ↔
        ∃ f m, dictGet (app.commandDict w) n = some (f, m) ∧ f.name = n)
    ∧ (∀ (func : PyFunc S V) (g : String) (disp : Option String) (opts : List (String × V)),
        app.commandDict w = [] → app.dictRef < w.dicts.length →
        app.list_commands (app.register func disp [g] opts w) = [func.name]) := by
  constructor
  · intro n
    exact filter_primary_mem _ hnd n
  · intro func g disp opts hempty href
    unfold App.list_commands
    rw [commandDict_register app func disp [g] opts w href, hempty]
    by_cases hg : func.name = g
    · simp [dictSet, hg, List.filter_cons]
    · simp [dictSet, hg, List.filter_cons]

theorem list_commands_primary_witness :
    (((App.mk "demo" none (fun (v : Nat) (_ : CommandMeta Nat) => v) 0
        : App Nat Nat Nat).commandDict { states := [], dicts := [[]] }).map Prod.fst).Nodup ∧
    (App.mk "demo" none (fun (v : Nat) (_ : CommandMeta Nat) => v) 0
        : App Nat Nat Nat).list_commands
      ((App.mk "demo" none (fun (v : Nat) (_ : CommandMeta Nat) => v) 0
          : App Nat Nat Nat).register ⟨"f", fun s _ => (s, 0)⟩ none ["g"] []
        { states := [], dicts := [[]] }) = ["f"] :=
  ⟨by decide,
    (list_commands_primary { states := [], dicts := [[]] } _ (by decide)).2
      ⟨"f", fun s _ => (s, 0)⟩ "g" none [] rfl (by decide)⟩

/-! ## Dict update lemmas -/

theorem dictGet_dictSet_self {β : Type _} (d : List (String × β)) (k : String) (v : β) :
    dictGet (dictSet d k v) k = some v := by
  induction d with
  | nil => simp [dictSet, dictGet]
  | cons p rest ih =>
    obtain ⟨k2, v2⟩ := p
    by_cases h : k2 = k
    · simp [dictSet, dictGet, h]
    · simp [dictSet, dictGet, h, ih]

theorem dictGet_dictSet_other {β : Type _} (d : List (String × β)) (k k2 : String) (v : β)
    (h : k2 ≠ k) : dictGet (dictSet d k2 v) k = dictGet d k := by
  induction d with
  | nil => simp [dictSet, dictGet, h]
  | cons p rest ih =>
    obtain ⟨k3, v3⟩ := p
    by_cases h3 : k3 = k2
    · subst h3
      simp [dictSet, dictGet, h]
    · by_cases h4 : k3 = k
      · simp [dictSet, dictGet, h3, h4, Ne.symm h]
      · simp [dictSet, dictGet, h3, h4, ih]

theorem dictGet_foldl_same {β : Type _} (as : List String) (d : List (String × β))
    (k : String) (e : β) (h : dictGet d k = some e) :
    dictGet (as.foldl (fun d a => dictSet d a e) d) k = some e := by
  induction as generalizing d with
  | nil => exact h
  | cons a rest ih =>
    rw [List.foldl_cons]
    apply ih
    by_cases ha : a = k
    · subst ha
      exact dictGet_dictSet_self d a e
    · rw [dictGet_dictSet_other d k a e ha]
      exact h

theorem dictGet_foldl_other {β : Type _} (as : List String) (d : List (String × β))
    (k : String) (e : β) (h : ¬ k ∈ as) :
    dictGet (as.foldl (fun d a => dictSet d a e) d) k = dictGet d k := by
  induction as generalizing d with
  | nil => rfl
  | cons a rest ih =>
    rw [List.foldl_cons]
    have hak : a ≠ k := fun hx => h (hx ▸ List.mem_cons_self a rest)
    rw [ih (dictSet d a e) (fun hx => h (List.mem_cons_of_mem a hx)),
      dictGet_dictSet_other d k a e hak]

theorem dictGet_foldl_mem {β : Type _} (as : List String) (d : List (String × β))
    (k : String) (e : β) (h : k ∈ as) :
    dictGet (as.foldl (fun d a => dictSet d a e) d) k = some e := by
  induction as generalizing d with
  | nil => cases h
  | cons a rest ih =>
    rw [List.foldl_cons]
    by_cases hr : k ∈ rest
    · exact ih (dictSet d a e) hr
    · have hak : a = k := by
        rcases List.mem_cons.1 h with rfl | hmem
        · rfl
        · exact absurd hmem hr
      subst hak
      rw [dictGet_foldl_other rest (dictSet d a e) a e hr]
      exact dictGet_dictSet_self d a e

/-! ## C6: `using` shares registry and state by reference -/

/-- C6: `B = A.using(serializer)` holds the same registry reference and the
same state reference as `A` (so `B`'s command dict and observed state agree
with `A`'s in every heap); a command registered through `A` is found in the
registry as seen through `B`; and a state mutation performed by a command
executed through `A` is exactly what `B` observes next. -/
theorem using_shares_registry_and_state {S V R R2 : Type _} [Inhabited S] (w : World S V)
    (A : App S V R) (ser : V → CommandMeta V → R2) (mkState : S) :
    ((A.using ser mkState w).1.dictRef = A.dictRef ∧
      (A.using ser mkState w).1.stateRef = A.stateRef)
    ∧ (∀ w2 : World S V, (A.using ser mkState w).1.commandDict w2 = A.commandDict w2 ∧
        (A.using ser mkState w).1.observedState w2 = A.observedState w2)
    ∧ (∀ (func : PyFunc S V) (disp : Option String) (aliases : List String)
        (opts : List (String × V)) (w2 : World S V),
        A.dictRef < w2.dicts.length →
        dictGet ((A.using ser mkState w).1.commandDict (A.register func disp aliases opts w2))
            func.name = some (func, ⟨disp, opts, aliases, none⟩))
    ∧ (∀ (w2 : World S V) (n : String) (func : PyFunc S V) (meta : CommandMeta V)
        (args : List V) (r : Nat) (s2 : S),
        A.stateRef = some r → r < w2.states.length →
        dictGet (A.commandDict w2) n = some (func, meta) →
        (func.impl (some (w2.states.getD r default)) args).1 = some s2 →
        (A.using ser mkState w).1.observedState (A.execute n args w2).2 = some s2) := by
  have hdict : (A.using ser mkState w).1.dictRef = A.dictRef := by
    cases h : A.stateRef <;> simp [App.using, mkApp, h]
  have hstate : (A.using ser mkState w).1.stateRef = A.stateRef := by
    cases h : A.stateRef <;> simp [App.using, mkApp, h]
  refine ⟨⟨hdict, hstate⟩, ?_, ?_, ?_⟩
  · intro w2
    constructor
    · simp [App.commandDict, hdict]
    · simp [App.observedState, hstate]
  · intro func disp aliases opts w2 href
    have hsame : (A.using ser mkState w).1.commandDict (A.register func disp aliases opts w2) =
        A.commandDict (A.register func disp aliases opts w2) := by
      simp [App.commandDict, hdict]
    rw [hsame, commandDict_register A func disp aliases opts w2 href]
    exact dictGet_foldl_same _ _ _ _ (dictGet_dictSet_self _ _ _)
  · intro w2 n func meta args r s2 hr hrlen hget himpl
    have hsame : ∀ w3 : World S V,
        (A.using ser mkState w).1.observedState w3 = A.observedState w3 := by
      intro w3
      simp [App.observedState, hstate]
    rw [hsame]
    unfold App.execute
    rw [hget, hr]
    simp only [App.observedState, hr, Option.bind_some]
    rw [himpl]
    simp [List.getElem?_set_self (by simpa using hrlen)]

theorem using_shares_registry_and_state_witness :
    ((App.mk "app" (some 0) (fun (v : Nat) (_ : CommandMeta Nat) => v) 0
        : App Nat Nat Nat).stateRef = some 0 ∧
      (0 : Nat) < ([5] : List Nat).length) ∧
    ((App.mk "app" (some 0) (fun (v : Nat) (_ : CommandMeta Nat) => v) 0
        : App Nat Nat Nat).using (fun v _ => v) 0
      { states := [5],
        dicts := [[("inc", ⟨"inc", fun s _ => (s.map (· + 1), 0)⟩,
          { display := none, display_opts := [], aliases := [] })]] }).1.observedState
      ((App.mk "app" (some 0) (fun (v : Nat) (_ : CommandMeta Nat) => v) 0
          : App Nat Nat Nat).execute "inc" []
        { states := [5],
          dicts := [[("inc", ⟨"inc", fun s _ => (s.map (· + 1), 0)⟩,
            { display := none, display_opts := [], aliases := [] })]] }).2 = some 6 :=
  ⟨⟨rfl, by decide⟩,
    (using_shares_registry_and_state
      { states := [5],
        dicts := [[("inc", ⟨"inc", fun s _ => (s.map (· + 1), 0)⟩,
          { display := none, display_opts := [], aliases := [] })]] }
      (App.mk "app" (some 0) (fun (v : Nat) (_ : CommandMeta Nat) => v) 0)
      (fun v _ => v) 0).2.2.2
      _ "inc" _ _ [] 0 6 rfl (by decide) rfl rfl⟩



/-! ## C7: tree rendering — glyphs, prefix inheritance, inline scalars -/

theorem isEmpty_false_of_ne (s : String) (h : s ≠ "") : s.isEmpty = false := by
  rw [Bool.eq_false_iff]
  intro he
  exact h ((String.isEmpty_iff s).1 he)

theorem strAll_append (a b : String) (p : Char → Bool) :
    (a ++ b).data.all p = (a.data.all p && b.data.all p) := by
  show (a.data ++ b.data).all p = _
  exact List.all_append

theorem joinLines_data : ∀ ls : List String,
    (joinLines ls).data = List.intercalate ['\n'] (ls.map String.data)
  | [] => rfl
  | [x] => by
    show x.data = List.intercalate ['\n'] [x.data]
    simp [List.intercalate]
  | x :: y :: t => by
    have ih := joinLines_data (y :: t)
    show (x ++ "\n" ++ pyJoin "\n" (y :: t)).data = _
    have h1 : (x ++ "\n" ++ pyJoin "\n" (y :: t)).data =
        x.data ++ '\n' :: (pyJoin "\n" (y :: t)).data := by
      show (x.data ++ ['\n']) ++ (pyJoin "\n" (y :: t)).data = _
      rw [List.append_assoc]
      rfl
    rw [h1]
    have ih2 : (pyJoin "\n" (y :: t)).data =
        List.intercalate ['\n'] ((y :: t).map String.data) := ih
    rw [ih2]
    simp only [List.map_cons, List.intercalate, List.intersperse_cons_cons,
      List.flatten_cons]
    rfl

theorem pySplitLines_joinLines (ls : List String) (hne : ls ≠ [])
    (hnl : ∀ l ∈ ls, (l.data.all fun c => ¬ c = '\n') = true) :
    pySplitLines (joinLines ls) = ls := by
  unfold pySplitLines
  rw [joinLines_data]
  have hx : ∀ l ∈ ls.map String.data, ¬ '\n' ∈ l := by
    intro l hl hmem
    rcases List.mem_map.1 hl with ⟨s, hs, rfl⟩
    have := List.all_eq_true.1 (hnl s hs) '\n' hmem
    simp at this
  have hls : ls.map String.data ≠ [] := by
    cases ls with
    | nil => exact absurd rfl hne
    | cons a l => simp
  rw [List.splitOn_intercalate _ '\n' hx hls, List.map_map]
  have hcomp : (fun l : List Char => String.mk l) ∘ String.data = id := funext fun s => rfl
  rw [hcomp, List.map_id]


theorem scalarStr_nlfree (v : Val) (h : valNLFree v = true) :
    (scalarStr v).data.all (fun c => ¬ c = '\n') = true := by
  cases v with
  | vstr s => simpa [valNLFree, scalarStr] using h
  | vint n => simpa [valNLFree, scalarStr] using h
  | vdict d => simp [scalarStr]
  | vlist items => simp [scalarStr]

theorem listChildLines_mem (p : String) (items : List String) :
    ∀ l ∈ listChildLines p items,
      ∃ g s, (g = treeLast ∨ g = treeBranch) ∧ s ∈ items ∧ l = p ++ g ++ s := by
  induction items with
  | nil => intro l hl; cases hl
  | cons x rest ih =>
    intro l hl
    rw [listChildLines] at hl
    rcases List.mem_cons.1 hl with rfl | hl2
    · by_cases hr : rest.isEmpty
      · exact ⟨treeLast, x, Or.inl rfl, List.mem_cons_self _ _, by rw [if_pos hr]⟩
      · exact ⟨treeBranch, x, Or.inr rfl, List.mem_cons_self _ _,
          by rw [if_neg hr]⟩
    · rcases ih l hl2 with ⟨g, s, hg, hs, rfl⟩
      exact ⟨g, s, hg, List.mem_cons_of_mem _ hs, rfl⟩

theorem glyphs_nlfree :
    (treeBranch.data.all fun c => ¬ c = '\n') = true ∧
    (treeLast.data.all fun c => ¬ c = '\n') = true ∧
    (treePipe.data.all fun c => ¬ c = '\n') = true ∧
    (treeSpace.data.all fun c => ¬ c = '\n') = true := by decide

/-- Every line emitted by `treeLines data pfx` (for newline-free data and
prefix) is newline-free and extends the prefix `pfx`. -/
theorem treeLines_lines (data : List (String × Val)) (pfx : String) :
    entriesNLFree data = true → (pfx.data.all fun c => ¬ c = '\n') = true →
    ∀ l ∈ treeLines data pfx,
      (l.data.all fun c => ¬ c = '\n') = true ∧ ∃ t : String, l = pfx ++ t := by
  induction data, pfx using treeLines.induct with
  | case1 pfx =>
    intro _ _ l hl
    simp [treeLines] at hl
  | case2 k v rest pfx isLast newPfx ihdict ihrest =>
    intro hd hp l hl
    simp only [entriesNLFree, valNLFree, Bool.and_eq_true] at hd
    obtain ⟨⟨hk, hv⟩, hdrest⟩ := hd
    have hd2 : entriesNLFree rest = true := hdrest
    have hglyphNL : ((if rest.isEmpty then treeLast else treeBranch).data.all
        fun c => ¬ c = '\n') = true := by
      split <;> decide
    have hcontNL : ((if rest.isEmpty then treeSpace else treePipe).data.all
        fun c => ¬ c = '\n') = true := by
      split <;> decide
    have hkeyNL : ((if pfx.isEmpty then k
        else pfx ++ (if rest.isEmpty then treeLast else treeBranch) ++ k).data.all
        fun c => ¬ c = '\n') = true := by
      split
      · exact hk
      · rw [strAll_append, strAll_append, hp, hglyphNL, hk]
        rfl
    have hkeyPfx : ∃ t : String, (if pfx.isEmpty then k
        else pfx ++ (if rest.isEmpty then treeLast else treeBranch) ++ k) = pfx ++ t := by
      split
      · rename_i hemp
        refine ⟨k, ?_⟩
        rw [(String.isEmpty_iff pfx).1 hemp]
        rfl
      · exact ⟨(if rest.isEmpty then treeLast else treeBranch) ++ k,
          String.append_assoc _ _ _⟩
    have hnewNL : ((if pfx.isEmpty then (if rest.isEmpty then treeSpace else treePipe)
        else pfx ++ (if rest.isEmpty then treeSpace else treePipe)).data.all
        fun c => ¬ c = '\n') = true := by
      split
      · exact hcontNL
      · rw [strAll_append, hp, hcontNL]
        rfl
    have hnewLift : ∀ l2 : String,
        (∃ t2, l2 = (if pfx.isEmpty then (if rest.isEmpty then treeSpace else treePipe)
          else pfx ++ (if rest.isEmpty then treeSpace else treePipe)) ++ t2) →
        ∃ t, l2 = pfx ++ t := by
      intro l2 hl2
      rcases hl2 with ⟨t2, rfl⟩
      split
      · rename_i hemp
        refine ⟨(if rest.isEmpty then treeSpace else treePipe) ++ t2, ?_⟩
        rw [(String.isEmpty_iff pfx).1 hemp]
        rfl
      · exact ⟨(if rest.isEmpty then treeSpace else treePipe) ++ t2,
          String.append_assoc _ _ _⟩
    cases v with
    | vdict d =>
      rw [treeLines.eq_def] at hl
      replace hl : l ∈ (if (joinLines (treeLines d (if pfx.isEmpty then (if rest.isEmpty then treeSpace else treePipe)
          else pfx ++ (if rest.isEmpty then treeSpace else treePipe)))).isEmpty
          then [(if pfx.isEmpty then k
            else pfx ++ (if rest.isEmpty then treeLast else treeBranch) ++ k)]
          else (if pfx.isEmpty then k
            else pfx ++ (if rest.isEmpty then treeLast else treeBranch) ++ k)
            :: pySplitLines (joinLines (treeLines d (if pfx.isEmpty then (if rest.isEmpty then treeSpace else treePipe)
          else pfx ++ (if rest.isEmpty then treeSpace else treePipe)))))
          ++ treeLines rest pfx := hl
      have ihd : entriesNLFree d = true →
          (((if pfx.isEmpty then (if rest.isEmpty then treeSpace else treePipe)
          else pfx ++ (if rest.isEmpty then treeSpace else treePipe)) : String).data.all fun c => ¬ c = '\n') = true →
          ∀ l2 ∈ treeLines d (if pfx.isEmpty then (if rest.isEmpty then treeSpace else treePipe)
          else pfx ++ (if rest.isEmpty then treeSpace else treePipe)),
            (l2.data.all fun c => ¬ c = '\n') = true ∧
            ∃ t, l2 = (if pfx.isEmpty then (if rest.isEmpty then treeSpace else treePipe)
          else pfx ++ (if rest.isEmpty then treeSpace else treePipe)) ++ t := ihdict
      rcases List.mem_append.1 hl with hentry | hrest2
      · by_cases hsub : (joinLines (treeLines d (if pfx.isEmpty then (if rest.isEmpty then treeSpace else treePipe)
          else pfx ++ (if rest.isEmpty then treeSpace else treePipe)))).isEmpty
        · rw [if_pos hsub] at hentry
          rcases List.mem_singleton.1 hentry with rfl
          exact ⟨hkeyNL, hkeyPfx⟩
        · rw [if_neg hsub] at hentry
          rcases List.mem_cons.1 hentry with rfl | hsubmem
          · exact ⟨hkeyNL, hkeyPfx⟩
          · have hXne : treeLines d (if pfx.isEmpty then (if rest.isEmpty then treeSpace else treePipe)
          else pfx ++ (if rest.isEmpty then treeSpace else treePipe)) ≠ [] := by
              intro hX
              rw [hX] at hsub
              exact hsub rfl
            have hXfacts := ihd hv hnewNL
            rw [pySplitLines_joinLines _ hXne (fun l2 hl2 => (hXfacts l2 hl2).1)] at hsubmem
            exact ⟨(hXfacts l hsubmem).1, hnewLift l ((hXfacts l hsubmem).2)⟩
      · exact ihrest hd2 hp l hrest2
    | vlist items =>
      rw [treeLines.eq_def] at hl
      replace hl : l ∈ ((if pfx.isEmpty then k
          else pfx ++ (if rest.isEmpty then treeLast else treeBranch) ++ k)
          :: listChildLines (if pfx.isEmpty then (if rest.isEmpty then treeSpace else treePipe)
          else pfx ++ (if rest.isEmpty then treeSpace else treePipe)) items)
          ++ treeLines rest pfx := hl
      rcases List.mem_append.1 hl with hentry | hrest2
      · rcases List.mem_cons.1 hentry with rfl | hchild
        · exact ⟨hkeyNL, hkeyPfx⟩
        · rcases listChildLines_mem _ items l hchild with ⟨g, s, hg, hsmem, rfl⟩
          have hgNL : (g.data.all fun c => ¬ c = '\n') = true := by
            rcases glyphs_nlfree with ⟨h1, h2, _, _⟩
            rcases hg with rfl | rfl
            · exact h2
            · exact h1
          have hsNL : (s.data.all fun c => ¬ c = '\n') = true := by
            have hv3 := hv
            simp only [valNLFree] at hv3
            exact List.all_eq_true.1 hv3 s hsmem
          constructor
          · rw [strAll_append, strAll_append, hnewNL, hgNL, hsNL]
            rfl
          · exact hnewLift _ ⟨g ++ s, String.append_assoc _ _ _⟩
      · exact ihrest hd2 hp l hrest2
    | vstr s =>
      rw [treeLines.eq_def] at hl
      replace hl : l ∈ [(if pfx.isEmpty then k
          else pfx ++ (if rest.isEmpty then treeLast else treeBranch) ++ k)
          ++ ": " ++ scalarStr (.vstr s)]
          ++ treeLines rest pfx := hl
      rcases List.mem_append.1 hl with hentry | hrest2
      · rcases List.mem_singleton.1 hentry with rfl
        have hsNL := scalarStr_nlfree (.vstr s) hv
        constructor
        · rw [strAll_append, strAll_append, hkeyNL, hsNL]
          rfl
        · rcases hkeyPfx with ⟨t, ht⟩
          exact ⟨t ++ ": " ++ scalarStr (.vstr s), by
            rw [ht, String.append_assoc, String.append_assoc, String.append_assoc]⟩
      · exact ihrest hd2 hp l hrest2
    | vint n =>
      rw [treeLines.eq_def] at hl
      replace hl : l ∈ [(if pfx.isEmpty then k
          else pfx ++ (if rest.isEmpty then treeLast else treeBranch) ++ k)
          ++ ": " ++ scalarStr (.vint n)]
          ++ treeLines rest pfx := hl
      rcases List.mem_append.1 hl with hentry | hrest2
      · rcases List.mem_singleton.1 hentry with rfl
        have hsNL := scalarStr_nlfree (.vint n) hv
        constructor
        · rw [strAll_append, strAll_append, hkeyNL, hsNL]
          rfl
        · rcases hkeyPfx with ⟨t, ht⟩
          exact ⟨t ++ ": " ++ scalarStr (.vint n), by
            rw [ht, String.append_assoc, String.append_assoc, String.append_assoc]⟩
      · exact ihrest hd2 hp l hrest2


theorem tree_step_branch (pfx k : String) (d : List (String × Val)) (r : String × Val)
    (rs : List (String × Val)) (h : pfx ≠ "") :
    treeLines ((k, .vdict d) :: r :: rs) pfx =
      ((pfx ++ treeBranch ++ k)
        :: (if (tree d (pfx ++ treePipe)).isEmpty then []
            else pySplitLines (tree d (pfx ++ treePipe))))
      ++ treeLines (r :: rs) pfx := by
  have hemp : pfx.isEmpty = false := isEmpty_false_of_ne pfx h
  rw [treeLines.eq_def]
  simp only [hemp, Bool.false_eq_true, if_false, List.isEmpty_cons, tree]
  by_cases hsub : (joinLines (treeLines d (pfx ++ treePipe))).isEmpty
  · simp [hsub]
  · simp [hsub]

theorem tree_step_last (pfx k : String) (d : List (String × Val)) (h : pfx ≠ "") :
    treeLines [(k, .vdict d)] pfx =
      (pfx ++ treeLast ++ k)
        :: (if (tree d (pfx ++ treeSpace)).isEmpty then []
            else pySplitLines (tree d (pfx ++ treeSpace))) := by
  have hemp : pfx.isEmpty = false := isEmpty_false_of_ne pfx h
  rw [treeLines.eq_def]
  simp only [hemp, Bool.false_eq_true, if_false, List.isEmpty_nil, tree]
  by_cases hsub : (joinLines (treeLines d (pfx ++ treeSpace))).isEmpty
  · simp [hsub, treeLines]
  · simp [hsub, treeLines]

theorem tree_step_scalar_branch (pfx k : String) (n : Int) (r : String × Val)
    (rs : List (String × Val)) (h : pfx ≠ "") :
    treeLines ((k, .vint n) :: r :: rs) pfx =
      (pfx ++ treeBranch ++ k ++ ": " ++ toString n) :: treeLines (r :: rs) pfx := by
  have hemp : pfx.isEmpty = false := isEmpty_false_of_ne pfx h
  rw [treeLines.eq_def]
  simp [hemp, scalarStr]

theorem tree_step_scalar_last (pfx k : String) (n : Int) (h : pfx ≠ "") :
    treeLines [(k, .vint n)] pfx = [pfx ++ treeLast ++ k ++ ": " ++ toString n] := by
  have hemp : pfx.isEmpty = false := isEmpty_false_of_ne pfx h
  rw [treeLines.eq_def]
  simp [hemp, scalarStr, treeLines]

theorem tree_step_str_branch (pfx k s : String) (r : String × Val)
    (rs : List (String × Val)) (h : pfx ≠ "") :
    treeLines ((k, .vstr s) :: r :: rs) pfx =
      (pfx ++ treeBranch ++ k ++ ": " ++ s) :: treeLines (r :: rs) pfx := by
  have hemp : pfx.isEmpty = false := isEmpty_false_of_ne pfx h
  rw [treeLines.eq_def]
  simp [hemp, scalarStr]

theorem tree_step_str_last (pfx k s : String) (h : pfx ≠ "") :
    treeLines [(k, .vstr s)] pfx = [pfx ++ treeLast ++ k ++ ": " ++ s] := by
  have hemp : pfx.isEmpty = false := isEmpty_false_of_ne pfx h
  rw [treeLines.eq_def]
  simp [hemp, scalarStr, treeLines]

theorem tree_step_list_branch (pfx k : String) (items : List String) (r : String × Val)
    (rs : List (String × Val)) (h : pfx ≠ "") :
    treeLines ((k, .vlist items) :: r :: rs) pfx =
      ((pfx ++ treeBranch ++ k) :: listChildLines (pfx ++ treePipe) items)
        ++ treeLines (r :: rs) pfx := by
  have hemp : pfx.isEmpty = false := isEmpty_false_of_ne pfx h
  rw [treeLines.eq_def]
  simp [hemp]

theorem tree_step_list_last (pfx k : String) (items : List String) (h : pfx ≠ "") :
    treeLines [(k, .vlist items)] pfx =
      (pfx ++ treeLast ++ k) :: listChildLines (pfx ++ treeSpace) items := by
  have hemp : pfx.isEmpty = false := isEmpty_false_of_ne pfx h
  rw [treeLines.eq_def]
  simp [hemp, treeLines]

/-- C7: the tree renderer draws the branch glyph before every non-last
sibling key and the terminal glyph before the last sibling key, whatever the
kind of the entry's value — mapping, sequence, or plain scalar; descendants
of a non-last sibling are rendered under the prefix extended by the
continuation pipe, descendants of the last sibling under the prefix extended
by the blank continuation (the recursive call for a mapping value, the child
leaves for a sequence value), and every emitted line extends its level's
prefix; non-mapping, non-sequence values (strings and integers, each through
`str(value)`) are appended inline to the key's own line as `key: value`; in
particular `tree {"a": {"b": 1}}` is exactly the two lines `a` and a
terminal-glyph child line for `b: 1`. -/
theorem tree_rendering_spec :
    (treeLines [("a", .vdict [("b", .vint 1)])] "" = ["a", treeSpace ++ treeLast ++ "b: 1"] ∧
      tree [("a", .vdict [("b", .vint 1)])] "" = "a" ++ "\n" ++ (treeSpace ++ treeLast ++ "b: 1"))
    ∧ (∀ (pfx k : String) (d : List (String × Val)) (r : String × Val)
        (rs : List (String × Val)), pfx ≠ "" →
        treeLines ((k, .vdict d) :: r :: rs) pfx =
          ((pfx ++ treeBranch ++ k)
            :: (if (tree d (pfx ++ treePipe)).isEmpty then []
                else pySplitLines (tree d (pfx ++ treePipe))))
          ++ treeLines (r :: rs) pfx)
    ∧ (∀ (pfx k : String) (d : List (String × Val)), pfx ≠ "" →
        treeLines [(k, .vdict d)] pfx =
          (pfx ++ treeLast ++ k)
            :: (if (tree d (pfx ++ treeSpace)).isEmpty then []
                else pySplitLines (tree d (pfx ++ treeSpace))))
    ∧ (∀ (pfx k : String) (n : Int) (r : String × Val) (rs : List (String × Val)),
        pfx ≠ "" →
        treeLines ((k, .vint n) :: r :: rs) pfx =
          (pfx ++ treeBranch ++ k ++ ": " ++ toString n) :: treeLines (r :: rs) pfx)
    ∧ (∀ (pfx k : String) (n : Int), pfx ≠ "" →
        treeLines [(k, .vint n)] pfx = [pfx ++ treeLast ++ k ++ ": " ++ toString n])
    ∧ (∀ (pfx k s : String) (r : String × Val) (rs : List (String × Val)), pfx ≠ "" →
        treeLines ((k, .vstr s) :: r :: rs) pfx =
          (pfx ++ treeBranch ++ k ++ ": " ++ s) :: treeLines (r :: rs) pfx)
    ∧ (∀ (pfx k s : String), pfx ≠ "" →
        treeLines [(k, .vstr s)] pfx = [pfx ++ treeLast ++ k ++ ": " ++ s])
    ∧ (∀ (pfx k : String) (items : List String) (r : String × Val)
        (rs : List (String × Val)), pfx ≠ "" →
        treeLines ((k, .vlist items) :: r :: rs) pfx =
          ((pfx ++ treeBranch ++ k) :: listChildLines (pfx ++ treePipe) items)
            ++ treeLines (r :: rs) pfx)
    ∧ (∀ (pfx k : String) (items : List String), pfx ≠ "" →
        treeLines [(k, .vlist items)] pfx =
          (pfx ++ treeLast ++ k) :: listChildLines (pfx ++ treeSpace) items)
    ∧ (∀ (data : List (String × Val)) (pfx : String),
        entriesNLFree data = true → (pfx.data.all fun c => ¬ c = '\n') = true →
        ∀ l ∈ treeLines data pfx, ∃ t : String, l = pfx ++ t) := by
  refine ⟨⟨?_, ?_⟩, tree_step_branch, tree_step_last, tree_step_scalar_branch,
    tree_step_scalar_last, tree_step_str_branch, tree_step_str_last,
    tree_step_list_branch, tree_step_list_last,
    fun data pfx hd hp l hl => (treeLines_lines data pfx hd hp l hl).2⟩
  · simp only [treeLines]
    decide
  · simp only [tree, treeLines]
    decide

theorem tree_rendering_spec_witness :
    (treePipe ≠ "" ∧ entriesNLFree [("b", Val.vint 1)] = true ∧
      (treePipe.data.all fun c => ¬ c = '\n') = true) ∧
    (treeLines [("x", Val.vint 7), ("y", Val.vint 8)] treePipe =
      (treePipe ++ treeBranch ++ "x" ++ ": " ++ toString (7 : Int))
        :: treeLines [("y", Val.vint 8)] treePipe) ∧
    (treeLines [("k", Val.vstr "v")] treePipe = [treePipe ++ treeLast ++ "k" ++ ": " ++ "v"]) ∧
    (treeLines [("l", Val.vlist ["i1", "i2"])] treePipe =
      (treePipe ++ treeLast ++ "l") :: listChildLines (treePipe ++ treeSpace) ["i1", "i2"]) ∧
    ∀ l ∈ treeLines [("b", Val.vint 1)] treePipe, ∃ t : String, l = treePipe ++ t :=
  ⟨⟨by decide, by simp [entriesNLFree, valNLFree]; decide, by decide⟩,
    tree_rendering_spec.2.2.2.1 treePipe "x" 7 ("y", .vint 8) [] (by decide),
    tree_rendering_spec.2.2.2.2.2.2.1 treePipe "k" "v" (by decide),
    tree_rendering_spec.2.2.2.2.2.2.2.2.1 treePipe "l" ["i1", "i2"] (by decide),
    tree_rendering_spec.2.2.2.2.2.2.2.2.2 [("b", Val.vint 1)] treePipe
      (by simp [entriesNLFree, valNLFree]; decide) (by decide)⟩

theorem register_dicts_length {S V R : Type _} (app : App S V R) (func : PyFunc S V)
    (disp : Option String) (aliases : List String) (opts : List (String × V))
    (w : World S V) :
    (app.register func disp aliases opts w).dicts.length = w.dicts.length := by
  simp [App.register]

/-- Registering does not disturb bindings of names it does not write. -/
theorem register_preserves_other {S V R : Type _} (app : App S V R) (func : PyFunc S V)
    (disp : Option String) (aliases : List String) (opts : List (String × V))
    (w : World S V) (k : String) (href : app.dictRef < w.dicts.length)
    (hk1 : k ≠ func.name) (hk2 : ¬ k ∈ aliases) :
    dictGet (app.commandDict (app.register func disp aliases opts w)) k =
      dictGet (app.commandDict w) k := by
  rw [commandDict_register app func disp aliases opts w href,
    dictGet_foldl_other aliases _ k _ hk2,
    dictGet_dictSet_other _ k func.name _ (Ne.symm hk1)]

/-- After a registration, the primary name and every alias map to the one
freshly built `(func, meta)` pair. -/
theorem register_binds_names {S V R : Type _} (app : App S V R) (func : PyFunc S V)
    (disp : Option String) (aliases : List String) (opts : List (String × V))
    (w : World S V) (href : app.dictRef < w.dicts.length) :
    dictGet (app.commandDict (app.register func disp aliases opts w)) func.name =
        some (func, ⟨disp, opts, aliases, none⟩) ∧
    ∀ a ∈ aliases,
      dictGet (app.commandDict (app.register func disp aliases opts w)) a =
        some (func, ⟨disp, opts, aliases, none⟩) := by
  rw [commandDict_register app func disp aliases opts w href]
  constructor
  · exact dictGet_foldl_same _ _ _ _ (dictGet_dictSet_self _ _ _)
  · intro a ha
    exact dictGet_foldl_mem _ _ _ _ ha

/-- A run of registrations whose name sets avoid `k` leaves `k`'s binding
untouched. -/
theorem applyRegs_preserves_other {S V R : Type _} (app : App S V R)
    (regs : List (Registration S V)) (k : String) :
    ∀ w : World S V, app.dictRef < w.dicts.length →
      (¬ k ∈ regs.flatMap Registration.names) →
      dictGet (app.commandDict (applyRegs app regs w)) k =
        dictGet (app.commandDict w) k := by
  induction regs with
  | nil => intro w _ _; rfl
  | cons reg rest ih =>
    intro w href hk
    rw [List.flatMap_cons] at hk
    have hk1 : ¬ k ∈ Registration.names reg := fun hx => hk (List.mem_append.2 (Or.inl hx))
    have hk2 : ¬ k ∈ rest.flatMap Registration.names :=
      fun hx => hk (List.mem_append.2 (Or.inr hx))
    have hk1a : k ≠ reg.func.name := by
      intro hx
      apply hk1
      rw [Registration.names, hx]
      exact List.mem_cons_self _ _
    have hk1b : ¬ k ∈ reg.aliases := by
      intro hx
      apply hk1
      rw [Registration.names]
      exact List.mem_cons_of_mem _ hx
    show dictGet (app.commandDict (applyRegs app rest
      (app.register reg.func reg.display reg.aliases reg.opts w))) k = _
    rw [ih _ (by rw [register_dicts_length]; exact href) hk2,
      register_preserves_other app reg.func reg.display reg.aliases reg.opts w k href
        hk1a hk1b]

/-- C8 (amended): after a sequence of registrations in which no name
(primary or alias) is registered twice, every alias maps to exactly the same
`(operation, meta)` pair as its primary name — the pair built at that
registration. -/
theorem alias_consistency {S V R : Type _} (app : App S V R)
    (regs : List (Registration S V)) :
    ∀ w : World S V, app.dictRef < w.dicts.length →
      (regs.flatMap Registration.names).Nodup →
      ∀ reg ∈ regs, ∀ a ∈ reg.aliases,
        dictGet (app.commandDict (applyRegs app regs w)) a =
            some (reg.func, ⟨reg.display, reg.opts, reg.aliases, none⟩) ∧
        dictGet (app.commandDict (applyRegs app regs w)) reg.func.name =
            some (reg.func, ⟨reg.display, reg.opts, reg.aliases, none⟩) := by
  induction regs with
  | nil => intro w _ _ reg hmem; cases hmem
  | cons reg0 rest ih =>
    intro w href hnd reg hmem a ha
    rw [List.flatMap_cons, List.nodup_append] at hnd
    obtain ⟨hnd0, hndrest, hdisj⟩ := hnd
    have href2 : app.dictRef <
        (app.register reg0.func reg0.display reg0.aliases reg0.opts w).dicts.length := by
      rw [register_dicts_length]; exact href
    rcases List.mem_cons.1 hmem with rfl | hmem2
    · -- the registration itself, preserved through the rest
      have hbind := register_binds_names app reg.func reg.display reg.aliases reg.opts w href
      have hpres : ∀ k, k ∈ reg.names →
          dictGet (app.commandDict (applyRegs app rest
            (app.register reg.func reg.display reg.aliases reg.opts w))) k =
          dictGet (app.commandDict
            (app.register reg.func reg.display reg.aliases reg.opts w)) k := by
        intro k hk
        exact applyRegs_preserves_other app rest k _ href2 (fun hx => hdisj hk hx)
      constructor
      · show dictGet (app.commandDict (applyRegs app rest _)) a = _
        rw [hpres a (List.mem_cons_of_mem _ ha)]
        exact hbind.2 a ha
      · show dictGet (app.commandDict (applyRegs app rest _)) reg.func.name = _
        rw [hpres reg.func.name (List.mem_cons_self _ _)]
        exact hbind.1
    · exact ih _ href2 hndrest reg hmem2 a ha

theorem alias_consistency_witness :
    ((0 : Nat) < ([[]] : List (List (String × PyFunc Unit Unit × CommandMeta Unit))).length ∧
      (([{ func := ⟨"f", fun s _ => (s, ())⟩, aliases := ["g"] },
         { func := ⟨"h", fun s _ => (s, ())⟩ }]
          : List (Registration Unit Unit)).flatMap Registration.names).Nodup) ∧
    (dictGet ((App.mk "app" none (fun (_ : Unit) (_ : CommandMeta Unit) => ()) 0
        : App Unit Unit Unit).commandDict
        (applyRegs (App.mk "app" none (fun (_ : Unit) (_ : CommandMeta Unit) => ()) 0)
          [{ func := ⟨"f", fun s _ => (s, ())⟩, aliases := ["g"] },
           { func := ⟨"h", fun s _ => (s, ())⟩ }]
          { states := [], dicts := [[]] })) "g" =
        some (⟨"f", fun s _ => (s, ())⟩, ⟨none, [], ["g"], none⟩) ∧
      dictGet ((App.mk "app" none (fun (_ : Unit) (_ : CommandMeta Unit) => ()) 0
        : App Unit Unit Unit).commandDict
        (applyRegs (App.mk "app" none (fun (_ : Unit) (_ : CommandMeta Unit) => ()) 0)
          [{ func := ⟨"f", fun s _ => (s, ())⟩, aliases := ["g"] },
           { func := ⟨"h", fun s _ => (s, ())⟩ }]
          { states := [], dicts := [[]] })) "f" =
        some (⟨"f", fun s _ => (s, ())⟩, ⟨none, [], ["g"], none⟩)) :=
  ⟨⟨by decide, by decide⟩,
    alias_consistency (App.mk "app" none (fun (_ : Unit) (_ : CommandMeta Unit) => ()) 0)
      [{ func := ⟨"f", fun s _ => (s, ())⟩, aliases := ["g"] },
       { func := ⟨"h", fun s _ => (s, ())⟩ }]
      { states := [], dicts := [[]] } (by decide) (by decide)
      { func := ⟨"f", fun s _ => (s, ())⟩, aliases := ["g"] }
      (List.mem_cons_self _ _) "g" (List.mem_cons_self _ _)⟩

/-- C8 (original claim refuted): re-registering the primary name `"f"` (a
fresh decoration with a fresh meta) rebinds `"f"` but leaves the alias `"g"`
bound to the old pair — afterwards alias `"g"` and its primary `"f"` map to
different `(operation, meta)` pairs. -/
theorem alias_consistency_cex :
    dictGet ((App.mk "app" none (fun (_ : Unit) (_ : CommandMeta Unit) => ()) 0
        : App Unit Unit Unit).commandDict
        (applyRegs (App.mk "app" none (fun (_ : Unit) (_ : CommandMeta Unit) => ()) 0)
          [{ func := ⟨"f", fun s _ => (s, ())⟩, aliases := ["g"] },
           { func := ⟨"f", fun s _ => (s, ())⟩, display := some "x" }]
          { states := [], dicts := [[]] })) "g" ≠
    dictGet ((App.mk "app" none (fun (_ : Unit) (_ : CommandMeta Unit) => ()) 0
        : App Unit Unit Unit).commandDict
        (applyRegs (App.mk "app" none (fun (_ : Unit) (_ : CommandMeta Unit) => ()) 0)
          [{ func := ⟨"f", fun s _ => (s, ())⟩, aliases := ["g"] },
           { func := ⟨"f", fun s _ => (s, ())⟩, display := some "x" }]
          { states := [], dicts := [[]] })) "f" := by
  have hg : dictGet ((App.mk "app" none (fun (_ : Unit) (_ : CommandMeta Unit) => ()) 0
      : App Unit Unit Unit).commandDict
      (applyRegs (App.mk "app" none (fun (_ : Unit) (_ : CommandMeta Unit) => ()) 0)
        [{ func := ⟨"f", fun s _ => (s, ())⟩, aliases := ["g"] },
         { func := ⟨"f", fun s _ => (s, ())⟩, display := some "x" }]
        { states := [], dicts := [[]] })) "g" =
      some (⟨"f", fun s _ => (s, ())⟩, ⟨none, [], ["g"], none⟩) := rfl
  have hf : dictGet ((App.mk "app" none (fun (_ : Unit) (_ : CommandMeta Unit) => ()) 0
      : App Unit Unit Unit).commandDict
      (applyRegs (App.mk "app" none (fun (_ : Unit) (_ : CommandMeta Unit) => ()) 0)
        [{ func := ⟨"f", fun s _ => (s, ())⟩, aliases := ["g"] },
         { func := ⟨"f", fun s _ => (s, ())⟩, display := some "x" }]
        { states := [], dicts := [[]] })) "f" =
      some (⟨"f", fun s _ => (s, ())⟩, ⟨some "x", [], [], none⟩) := rfl
  rw [hg, hf]
  intro h
  simp only [Option.some.injEq, Prod.mk.injEq, CommandMeta.mk.injEq] at h
  exact absurd h.2.1 (by simp)
